import Mathlib

/-
Verification of the IDA backend adapter (`yodalib/decompilers/ida/interface.py`)
of binsync/yodalib.  The definitions below are a shallow embedding of the
adapter: addresses and byte values are natural numbers, the insertion-ordered
Python dicts become association lists, and calls into the IDA SDK (`idaapi`,
`ida_hexrays`, `compat`) are modelled as explicit parameters or effect logs.
-/

set_option autoImplicit false

namespace YodaIDA

/-- Canonical Patch artifact from `yodalib.data`: a start address `addr` and the
patched byte sequence `bytes` of one contiguous run. -/
structure Patch where
  addr : Nat
  bytes : List Nat
deriving DecidableEq

/-- Canonical Function artifact (only the fields the adapter code touches:
entry address, size, and the header name). -/
structure FunctionArtifact where
  addr : Nat
  size : Nat
  name : String
deriving DecidableEq

/-- IDA's invalid-address marker `idaapi.BADADDR` (64-bit form). -/
def BADADDR : Nat := 0xFFFFFFFFFFFFFFFF

/-- Strictly increasing address order on a fact list; `visit_patched_bytes`
enumerates modified bytes in this order, so it is the precondition under which
`_collect_continuous_patches` iterates its `patches` dict. -/
abbrev AddrSorted (l : List (Nat × Nat)) : Prop :=
  l.Pairwise (fun x y => x.1 < y.1)

/-- Embedding of `continuous_patches[patch_start] += patch` on the
insertion-ordered `defaultdict(bytes)`: append byte `b` to the entry keyed
`k`, or add a fresh singleton entry at the end when `k` is absent. -/
def addByte : List (Nat × List Nat) → Nat → Nat → List (Nat × List Nat)
  | [], k, b => [(k, [b])]
  | (k', bs) :: rest, k, b =>
    if k' = k then (k', bs ++ [b]) :: rest
    else (k', bs) :: addByte rest k b

/-- Embedding of the `for pos, patch in patches.items()` loop of
`_collect_continuous_patches`: `patchStart` and `lastPos` mirror `patch_start`
and `last_pos`, `acc` mirrors `continuous_patches`.  On a run break
(`pos != last_pos + 1`) with `stop_after_first` set and a previous fact seen,
the loop still appends the current byte (keyed at the new `patch_start`)
before breaking, exactly as the Python code does. -/
def coalesceLoop (stopAfterFirst : Bool) :
    List (Nat × Nat) → Nat → Option Nat → List (Nat × List Nat) → List (Nat × List Nat)
  | [], _, _, acc => acc
  | (pos, b) :: rest, _, none, acc =>
      coalesceLoop stopAfterFirst rest pos (some pos) (addByte acc pos b)
  | (pos, b) :: rest, patchStart, some lp, acc =>
      if pos = lp + 1 then
        coalesceLoop stopAfterFirst rest patchStart (some pos) (addByte acc patchStart b)
      else
        if stopAfterFirst then addByte acc pos b
        else coalesceLoop stopAfterFirst rest pos (some pos) (addByte acc pos b)

/-- Run of the coalescing loop on an already-enumerated fact list, from the
initial state `patch_start = None` (junk value `0`, never read before being
set), `last_pos = None`, `continuous_patches = {}`. -/
def coalesceRaw (facts : List (Nat × Nat)) (stopAfterFirst : Bool) : List (Nat × List Nat) :=
  coalesceLoop stopAfterFirst facts 0 none []

/-- Embedding of `idaapi.visit_patched_bytes(min_addr, max_addr, cb)` feeding
`_patch_collector`: of all modified-byte facts of the database, those with
address in `[minAddr, maxAddr)`, met in increasing order. -/
def visitPatchedBytes (global : List (Nat × Nat)) (minAddr maxAddr : Nat) : List (Nat × Nat) :=
  global.filter (fun f => decide (minAddr ≤ f.1) && decide (f.1 < maxAddr))

/-- Embedding of `_collect_continuous_patches(min_addr, max_addr,
stop_after_first)`: enumerate the modified bytes of the range, coalesce them,
and normalize each keyed byte string into a `Patch` at that key. -/
def collectContinuousPatches (global : List (Nat × Nat)) (minAddr maxAddr : Nat)
    (stopAfterFirst : Bool) : List (Nat × Patch) :=
  (coalesceRaw (visitPatchedBytes global minAddr maxAddr) stopAfterFirst).map
    (fun kb => (kb.1, Patch.mk kb.1 kb.2))

/-- Embedding of `self._max_patch_size = 0xff`. -/
def maxPatchSize : Nat := 0xff

/-- Embedding of `_get_patch(addr)`: coalesce over the window
`[addr - 1, addr + _max_patch_size)` with `stop_after_first=True`, then look
up the entry keyed exactly at `addr` (`patches.get(addr, None)`). -/
def getPatch (global : List (Nat × Nat)) (addr : Nat) : Option Patch :=
  List.lookup addr (collectContinuousPatches global (addr - 1) (addr + maxPatchSize) true)

/-- Reference function, following the words of the spec (§4.2 step 4): emit
one entry per distinct run start with the concatenated bytes of the run.
`runsFrom start bs last facts` closes the run that currently began at `start`,
has accumulated `bs`, and whose last fact was at address `last`. -/
def runsFrom (start : Nat) (bs : List Nat) (last : Nat) :
    List (Nat × Nat) → List (Nat × List Nat)
  | [] => [(start, bs)]
  | (a, b) :: rest =>
    if a = last + 1 then runsFrom start (bs ++ [b]) a rest
    else (start, bs) :: runsFrom a [b] a rest

/-- Reference function, following the words of the spec (§4.2): the maximal
contiguous runs of a fact list enumerated in increasing address order. -/
def runsSpec : List (Nat × Nat) → List (Nat × List Nat)
  | [] => []
  | (a, b) :: rest => runsFrom a [b] a rest

/-- Characterization of the loop in `stop_after_first` mode, read off the
code: the first maximal run is emitted in full and, when a later run exists,
the single byte that revealed the gap is also emitted, keyed at the second
run's start, before the loop breaks. -/
def firstRunFrom (start : Nat) (bs : List Nat) (last : Nat) :
    List (Nat × Nat) → List (Nat × List Nat)
  | [] => [(start, bs)]
  | (a, b) :: rest =>
    if a = last + 1 then firstRunFrom start (bs ++ [b]) a rest
    else [(start, bs), (a, [b])]

/-- Backend byte memory for the patch-writing model: the loaded image as a
byte list indexed by address. -/
def patchBytesMem : List Nat → Nat → List Nat → List Nat
  | [], _, _ => []
  | v :: rest, 0, [] => v :: rest
  | _ :: rest, 0, b :: bs => b :: patchBytesMem rest 0 bs
  | v :: rest, a + 1, bs => v :: patchBytesMem rest a bs

/-- Embedding of `_set_patch`: `idaapi.patch_bytes(patch.addr, patch.bytes)`
followed by `return True`, unconditionally. -/
def setPatch (mem : List Nat) (p : Patch) : Bool × List Nat :=
  (true, patchBytesMem mem p.addr p.bytes)

/-- Log severities of the adapter's logging sink. -/
inductive LogSeverity
  | info
  | warning
  | critical
deriving DecidableEq

/-- Backend mutations `_set_struct` can perform, as an effect log:
`compat.set_ida_struct` (header write) and
`compat.set_ida_struct_member_types` (member write). -/
inductive SyncEffect
  | headerWrite (name : String)
  | memberWrite (name : String)
deriving DecidableEq

/-- Struct artifact (only the fields `_set_struct` inspects). -/
structure StructArtifact where
  name : String
  size : Nat
deriving DecidableEq

/-- Outcome of one `_set_struct` call: the returned `data_changed` flag, the
backend writes performed, and the log records emitted. -/
structure SetStructResult where
  changed : Bool
  effects : List SyncEffect
  logs : List LogSeverity
deriving DecidableEq

/-- Embedding of `_set_struct(struct, header, members)`.  The booleans
`headerChanged` and `membersChanged` are the results the `compat` layer would
report for the two writes; `crashingVersion` is `self._crashing_version`. -/
def setStruct (crashingVersion : Bool) (st : StructArtifact) (header members : Bool)
    (headerChanged membersChanged : Bool) : SetStructResult :=
  if crashingVersion && (st.name == "gcc_va_list") then
    SetStructResult.mk false [] [LogSeverity.critical]
  else
    SetStructResult.mk ((header && headerChanged) || (members && membersChanged))
      ((if header then [SyncEffect.headerWrite st.name] else []) ++
        (if members then [SyncEffect.memberWrite st.name] else []))
      []

/-- Embedding of `_decompile(function)`: `ida_hexrays.decompile` is a backend
call that either faults (`Except.error`) or yields a `cfunc` object rendered
to text by `str(cfunc)` (`render`).  The `try/except Exception` converts every
fault into `None`. -/
def decompile {E C : Type} (backend : Nat → Except E C) (render : C → String)
    (f : FunctionArtifact) : Option String :=
  match backend f.addr with
  | Except.error _ => none
  | Except.ok cfunc => some (render cfunc)

/-- Mutable state of an `IDAInterface` instance: `_updated_ctx` and
`_decompiler_available` (the memoized probe; `None` means not yet probed). -/
structure AdapterState where
  updatedCtx : Option FunctionArtifact
  decompilerAvailableCache : Option Bool
deriving DecidableEq

/-- Embedding of the `decompiler_available` property: probe
`ida_hexrays.init_hexrays_plugin()` (its result is the parameter `probe`)
only when the cache is `None`, store the result, and return the cache. -/
def decompilerAvailable (probe : Bool) (s : AdapterState) : Bool × AdapterState :=
  match s.decompilerAvailableCache with
  | some v => (v, s)
  | none => (probe, AdapterState.mk s.updatedCtx (some probe))

/-- Embedding of `update_active_context(addr)`: ignore address `0` and
`BADADDR`, ignore addresses outside any function (`funcLookup` models
`compat.ida_func_addr` plus `compat.get_func_name`), otherwise store a fresh
`Function` artifact as the active context. -/
def updateActiveContext (s : AdapterState) (addr : Nat)
    (funcLookup : Nat → Option (Nat × String)) : AdapterState :=
  if addr = 0 ∨ addr = BADADDR then s
  else
    match funcLookup addr with
    | none => s
    | some fa => AdapterState.mk (some (FunctionArtifact.mk fa.1 0 fa.2)) s.decompilerAvailableCache

/-- Modelled from the spec: the reserved canonical sentinel for "invalid
address"; it is nonzero, and no valid native address lifts to it. -/
def canonicalSentinel : Nat := 0xFFFFFFFFFFFFFFFF

/-- Modelled from the spec: the Address Lifter (`IDAArtifactLifter` in
`artifact_lifter.py`) is not under `src/`; following §4.1, the backend uses
rebased addressing with image base `base`, `lift` sends the backend's
invalid-address marker to a reserved canonical sentinel and subtracts the
base from every other address. -/
def liftAddr (base x : Nat) : Nat :=
  if x = BADADDR then canonicalSentinel else x - base

/-- Modelled from the spec: `lower` is the inverse translation, sending the
canonical sentinel back to the backend's invalid-address marker and adding
the image base to every other address. -/
def lowerAddr (base c : Nat) : Nat :=
  if c = canonicalSentinel then BADADDR else c + base

/-- Modelled from the spec: the valid backend-native addresses of a backend
rebased at `base` are those at or above the base and distinct from the
invalid-address marker. -/
def validNative (base x : Nat) : Prop := base ≤ x ∧ x < BADADDR

/-- Appending a byte to the key held by the final entry leaves the earlier
entries untouched. -/
theorem addByte_last (front : List (Nat × List Nat)) (k : Nat) (bs : List Nat) (b : Nat)
    (h : ∀ e ∈ front, e.1 ≠ k) :
    addByte (front ++ [(k, bs)]) k b = front ++ [(k, bs ++ [b])] := by
  induction front with
  | nil => simp [addByte]
  | cons e rest ih =>
    obtain ⟨k', bs'⟩ := e
    have hne : k' ≠ k := h (k', bs') (List.mem_cons_self _ _)
    simp only [List.cons_append, addByte]
    rw [if_neg hne]
    exact congrArg (List.cons (k', bs')) (ih (fun e he => h e (List.mem_cons_of_mem _ he)))

/-- Adding a byte under a key absent from the map appends a fresh singleton
entry, preserving insertion order. -/
theorem addByte_fresh (m : List (Nat × List Nat)) (k : Nat) (b : Nat)
    (h : ∀ e ∈ m, e.1 ≠ k) :
    addByte m k b = m ++ [(k, [b])] := by
  induction m with
  | nil => rfl
  | cons e rest ih =>
    obtain ⟨k', bs'⟩ := e
    have hne : k' ≠ k := h (k', bs') (List.mem_cons_self _ _)
    simp only [List.cons_append, addByte]
    rw [if_neg hne]
    exact congrArg (List.cons (k', bs')) (ih (fun e he => h e (List.mem_cons_of_mem _ he)))

/-- Loop invariant for `stop_after_first=False`: from a state whose open run
began at `start` and last saw address `lp`, the loop extends the accumulator
with exactly the maximal runs of the remaining sorted facts. -/
theorem coalesceLoop_false_runs (facts : List (Nat × Nat)) :
    ∀ (front : List (Nat × List Nat)) (start lp : Nat) (bs : List Nat),
      (∀ e ∈ front, e.1 < start) → start ≤ lp →
      (∀ f ∈ facts, lp < f.1) → AddrSorted facts →
      coalesceLoop false facts start (some lp) (front ++ [(start, bs)]) =
        front ++ runsFrom start bs lp facts := by
  induction facts with
  | nil => intro front start lp bs _ _ _ _; rfl
  | cons f rest ih =>
    obtain ⟨pos, b⟩ := f
    intro front start lp bs hfront hsl hgt hsorted
    have hpos : lp < pos := hgt (pos, b) (List.mem_cons_self _ _)
    have hrest_gt : ∀ g ∈ rest, pos < g.1 := fun g hg => (List.pairwise_cons.mp hsorted).1 g hg
    have hrest_sorted : AddrSorted rest := (List.pairwise_cons.mp hsorted).2
    by_cases hadj : pos = lp + 1
    · have hkeys : ∀ e ∈ front, e.1 ≠ start := fun e he => Nat.ne_of_lt (hfront e he)
      simp only [coalesceLoop, runsFrom, if_pos hadj]
      rw [addByte_last front start bs b hkeys]
      exact ih front start pos (bs ++ [b]) hfront
        (Nat.le_trans hsl (Nat.le_of_lt hpos)) hrest_gt hrest_sorted
    · have hlt : start < pos := Nat.lt_of_le_of_lt hsl hpos
      have hkeys2 : ∀ e ∈ front ++ [(start, bs)], e.1 < pos := by
        intro e he
        rcases List.mem_append.mp he with h1 | h2
        · exact Nat.lt_trans (hfront e h1) hlt
        · rw [List.mem_singleton.mp h2]; exact hlt
      have hkeys : ∀ e ∈ front ++ [(start, bs)], e.1 ≠ pos :=
        fun e he => Nat.ne_of_lt (hkeys2 e he)
      have hstep : coalesceLoop false ((pos, b) :: rest) start (some lp) (front ++ [(start, bs)]) =
          coalesceLoop false rest pos (some pos) (addByte (front ++ [(start, bs)]) pos b) := by
        simp [coalesceLoop, hadj]
      rw [hstep, addByte_fresh _ pos b hkeys,
        ih (front ++ [(start, bs)]) pos pos [b] hkeys2 (Nat.le_refl pos) hrest_gt hrest_sorted]
      simp [runsFrom, hadj, List.append_assoc]

/-- Loop invariant for `stop_after_first=True`: the loop finishes the open
run and, when the sorted remainder contains a gap, adds the one byte at the
gap keyed at the new run start before breaking. -/
theorem coalesceLoop_true_firstRun (facts : List (Nat × Nat)) :
    ∀ (front : List (Nat × List Nat)) (start lp : Nat) (bs : List Nat),
      (∀ e ∈ front, e.1 < start) → start ≤ lp →
      (∀ f ∈ facts, lp < f.1) → AddrSorted facts →
      coalesceLoop true facts start (some lp) (front ++ [(start, bs)]) =
        front ++ firstRunFrom start bs lp facts := by
  induction facts with
  | nil => intro front start lp bs _ _ _ _; rfl
  | cons f rest ih =>
    obtain ⟨pos, b⟩ := f
    intro front start lp bs hfront hsl hgt hsorted
    have hpos : lp < pos := hgt (pos, b) (List.mem_cons_self _ _)
    have hrest_gt : ∀ g ∈ rest, pos < g.1 := fun g hg => (List.pairwise_cons.mp hsorted).1 g hg
    have hrest_sorted : AddrSorted rest := (List.pairwise_cons.mp hsorted).2
    by_cases hadj : pos = lp + 1
    · have hkeys : ∀ e ∈ front, e.1 ≠ start := fun e he => Nat.ne_of_lt (hfront e he)
      simp only [coalesceLoop, firstRunFrom, if_pos hadj]
      rw [addByte_last front start bs b hkeys]
      exact ih front start pos (bs ++ [b]) hfront
        (Nat.le_trans hsl (Nat.le_of_lt hpos)) hrest_gt hrest_sorted
    · have hlt : start < pos := Nat.lt_of_le_of_lt hsl hpos
      have hkeys : ∀ e ∈ front ++ [(start, bs)], e.1 ≠ pos := by
        intro e he
        rcases List.mem_append.mp he with h1 | h2
        · exact Nat.ne_of_lt (Nat.lt_trans (hfront e h1) hlt)
        · rw [List.mem_singleton.mp h2]; exact Nat.ne_of_lt hlt
      have hstep : coalesceLoop true ((pos, b) :: rest) start (some lp) (front ++ [(start, bs)]) =
          addByte (front ++ [(start, bs)]) pos b := by
        simp [coalesceLoop, hadj]
      rw [hstep, addByte_fresh _ pos b hkeys]
      simp [firstRunFrom, hadj, List.append_assoc]

/-- On a sorted fact list, the full scan (`stop_after_first=False`) produces
exactly the maximal runs described by the spec. -/
theorem coalesceRaw_false_eq_runsSpec (facts : List (Nat × Nat)) (h : AddrSorted facts) :
    coalesceRaw facts false = runsSpec facts := by
  cases facts with
  | nil => rfl
  | cons f rest =>
    obtain ⟨p, b⟩ := f
    have h1 : ∀ g ∈ rest, p < g.1 := fun g hg => (List.pairwise_cons.mp h).1 g hg
    have h2 : AddrSorted rest := (List.pairwise_cons.mp h).2
    have hstep : coalesceRaw ((p, b) :: rest) false =
        coalesceLoop false rest p (some p) [(p, [b])] := by
      simp [coalesceRaw, coalesceLoop, addByte]
    rw [hstep]
    have hmain := coalesceLoop_false_runs rest [] p p [b] (by simp) (Nat.le_refl p) h1 h2
    simpa [runsSpec] using hmain

/-- On a sorted nonempty fact list, the early-exit scan
(`stop_after_first=True`) produces the first run plus the possible one-byte
entry at the second run's start. -/
theorem coalesceRaw_true_eq_firstRun (p b : Nat) (rest : List (Nat × Nat))
    (h : AddrSorted ((p, b) :: rest)) :
    coalesceRaw ((p, b) :: rest) true = firstRunFrom p [b] p rest := by
  have h1 : ∀ g ∈ rest, p < g.1 := fun g hg => (List.pairwise_cons.mp h).1 g hg
  have h2 : AddrSorted rest := (List.pairwise_cons.mp h).2
  have hstep : coalesceRaw ((p, b) :: rest) true =
      coalesceLoop true rest p (some p) [(p, [b])] := by
    simp [coalesceRaw, coalesceLoop, addByte]
  rw [hstep]
  have hmain := coalesceLoop_true_firstRun rest [] p p [b] (by simp) (Nat.le_refl p) h1 h2
  simpa using hmain

/-- Looking up through the `Patch` normalization step is the lookup in the
raw keyed byte strings. -/
theorem lookup_map_mk (m : List (Nat × List Nat)) (a : Nat) :
    List.lookup a (m.map fun kb => (kb.1, Patch.mk kb.1 kb.2)) =
      (List.lookup a m).map (Patch.mk a) := by
  induction m with
  | nil => rfl
  | cons e rest ih =>
    obtain ⟨k, bs⟩ := e
    by_cases h : a = k
    · subst h
      have hbeq : (a == a) = true := beq_self_eq_true a
      simp [List.lookup, hbeq]
    · have hbeq : (a == k) = false := by simp [h]
      simp [List.lookup, hbeq, ih]

/-- A successful association-list lookup names an entry of the list. -/
theorem lookup_mem_pairs {m : List (Nat × List Nat)} {a : Nat} {v : List Nat}
    (h : List.lookup a m = some v) : (a, v) ∈ m := by
  induction m with
  | nil => simp [List.lookup] at h
  | cons e rest ih =>
    obtain ⟨k, bs⟩ := e
    by_cases hk : a = k
    · subst hk
      have hbeq : (a == a) = true := beq_self_eq_true a
      have hbs : bs = v := by simpa [List.lookup, hbeq] using h
      rw [← hbs]
      exact List.mem_cons_self _ _
    · have hbeq : (a == k) = false := by simp [hk]
      have hrest : List.lookup a rest = some v := by simpa [List.lookup, hbeq] using h
      exact List.mem_cons_of_mem _ (ih hrest)

/-- Lookup misses when no entry carries the key. -/
theorem lookup_eq_none_pairs {m : List (Nat × List Nat)} {a : Nat}
    (h : ∀ e ∈ m, e.1 ≠ a) : List.lookup a m = none := by
  induction m with
  | nil => rfl
  | cons e rest ih =>
    obtain ⟨k, bs⟩ := e
    have hk : ¬(a = k) := fun hh => h (k, bs) (List.mem_cons_self _ _) hh.symm
    have hbeq : (a == k) = false := by simp [hk]
    simp only [List.lookup, hbeq]
    exact ih (fun e he => h e (List.mem_cons_of_mem _ he))

/-- Membership in the enumerated window. -/
theorem visitPatchedBytes_mem (global : List (Nat × Nat)) (minAddr maxAddr : Nat) (f : Nat × Nat) :
    f ∈ visitPatchedBytes global minAddr maxAddr ↔
      f ∈ global ∧ (minAddr ≤ f.1 ∧ f.1 < maxAddr) := by
  simp [visitPatchedBytes, List.mem_filter]

/-- The windowed enumeration preserves strictly increasing address order. -/
theorem visitPatchedBytes_sorted {global : List (Nat × Nat)} (h : AddrSorted global)
    (minAddr maxAddr : Nat) : AddrSorted (visitPatchedBytes global minAddr maxAddr) :=
  List.Pairwise.sublist (List.filter_sublist _) h

/-- In a sorted fact list, an address that is a lower bound of all addresses
and occurs in the list is the head's address. -/
theorem sorted_head_of_min {l : List (Nat × Nat)} (h : AddrSorted l) {x : Nat}
    (hx : x ∈ l.map Prod.fst) (hall : ∀ y ∈ l.map Prod.fst, x ≤ y) :
    ∃ b rest, l = (x, b) :: rest := by
  cases l with
  | nil => simp at hx
  | cons f rest =>
    obtain ⟨q, bq⟩ := f
    rcases List.mem_map.mp hx with ⟨e, he, hee⟩
    rcases List.mem_cons.mp he with h1 | h2
    · refine ⟨bq, rest, ?_⟩
      have hq : q = x := by rw [h1] at hee; exact hee
      rw [hq]
    · exfalso
      have hq : q < e.1 := (List.pairwise_cons.mp h).1 e h2
      have hxq : x ≤ q := hall q (by simp)
      omega

/-- Every key emitted by the early-exit run builder is either the open run's
start or the address of one of the remaining facts. -/
theorem firstRunFrom_mem_keys (rest : List (Nat × Nat)) :
    ∀ (start lp : Nat) (bs : List Nat) (k : Nat) (v : List Nat),
      (k, v) ∈ firstRunFrom start bs lp rest → k = start ∨ k ∈ rest.map Prod.fst := by
  induction rest with
  | nil =>
    intro start lp bs k v h
    simp only [firstRunFrom, List.mem_singleton, Prod.mk.injEq] at h
    exact Or.inl h.1
  | cons f r ih =>
    obtain ⟨q, bq⟩ := f
    intro start lp bs k v h
    by_cases hq : q = lp + 1
    · simp only [firstRunFrom, if_pos hq] at h
      rcases ih start q (bs ++ [bq]) k v h with h1 | h2
      · exact Or.inl h1
      · exact Or.inr (by simp [h2])
    · simp only [firstRunFrom, if_neg hq, List.mem_cons, List.mem_singleton,
        Prod.mk.injEq, List.not_mem_nil, or_false] at h
      rcases h with ⟨h1, _⟩ | ⟨h1, _⟩
      · exact Or.inl h1
      · exact Or.inr (by simp [h1])

/-- Every key emitted by the early-exit run builder is either the open run's
start, or lies at least two past the last seen address — so the address one
past the last seen fact is never a key of its own. -/
theorem firstRunFrom_key_lb (rest : List (Nat × Nat)) :
    ∀ (start lp : Nat) (bs : List Nat) (k : Nat) (v : List Nat),
      (∀ f ∈ rest, lp < f.1) → AddrSorted rest →
      (k, v) ∈ firstRunFrom start bs lp rest → k = start ∨ lp + 2 ≤ k := by
  induction rest with
  | nil =>
    intro start lp bs k v _ _ h
    simp only [firstRunFrom, List.mem_singleton, Prod.mk.injEq] at h
    exact Or.inl h.1
  | cons f r ih =>
    obtain ⟨q, bq⟩ := f
    intro start lp bs k v hgt hsorted h
    have hql : lp < q := hgt (q, bq) (List.mem_cons_self _ _)
    have hr_gt : ∀ g ∈ r, q < g.1 := fun g hg => (List.pairwise_cons.mp hsorted).1 g hg
    have hr_sorted : AddrSorted r := (List.pairwise_cons.mp hsorted).2
    by_cases hq : q = lp + 1
    · simp only [firstRunFrom, if_pos hq] at h
      rcases ih start q (bs ++ [bq]) k v hr_gt hr_sorted h with h1 | h2
      · exact Or.inl h1
      · right; omega
    · simp only [firstRunFrom, if_neg hq, List.mem_cons, List.mem_singleton,
        Prod.mk.injEq, List.not_mem_nil, or_false] at h
      rcases h with ⟨h1, _⟩ | ⟨h1, _⟩
      · exact Or.inl h1
      · right; omega

/-- Length bound for the early-exit run builder: when the open run satisfies
`start + |bs| = lp + 1` and every remaining fact lies below `B`, every
emitted entry `(k, v)` satisfies `k + |v| ≤ B`. -/
theorem firstRunFrom_len (rest : List (Nat × Nat)) :
    ∀ (start lp : Nat) (bs : List Nat) (B : Nat) (k : Nat) (v : List Nat),
      start + bs.length = lp + 1 → lp < B →
      (∀ f ∈ rest, lp < f.1) → (∀ f ∈ rest, f.1 < B) → AddrSorted rest →
      (k, v) ∈ firstRunFrom start bs lp rest → k + v.length ≤ B := by
  induction rest with
  | nil =>
    intro start lp bs B k v hinv hlB _ _ _ h
    simp only [firstRunFrom, List.mem_singleton, Prod.mk.injEq] at h
    obtain ⟨h1, h2⟩ := h
    subst h1; subst h2
    omega
  | cons f r ih =>
    obtain ⟨q, bq⟩ := f
    intro start lp bs B k v hinv hlB hgt hub hsorted h
    have hql : lp < q := hgt (q, bq) (List.mem_cons_self _ _)
    have hqB : q < B := hub (q, bq) (List.mem_cons_self _ _)
    have hr_gt : ∀ g ∈ r, q < g.1 := fun g hg => (List.pairwise_cons.mp hsorted).1 g hg
    have hr_ub : ∀ g ∈ r, g.1 < B := fun g hg => hub g (List.mem_cons_of_mem _ hg)
    have hr_sorted : AddrSorted r := (List.pairwise_cons.mp hsorted).2
    by_cases hq : q = lp + 1
    · simp only [firstRunFrom, if_pos hq] at h
      refine ih start q (bs ++ [bq]) B k v ?_ hqB hr_gt hr_ub hr_sorted h
      rw [List.length_append]
      simp only [List.length_singleton]
      omega
    · simp only [firstRunFrom, if_neg hq, List.mem_cons, List.mem_singleton,
        Prod.mk.injEq, List.not_mem_nil, or_false] at h
      rcases h with ⟨h1, h2⟩ | ⟨h1, h2⟩
      · subst h1; subst h2; omega
      · subst h1; subst h2
        simp only [List.length_singleton]
        omega

/-- The open run's start is always a key of the spec-side run builder. -/
theorem runsFrom_head_mem (rest : List (Nat × Nat)) :
    ∀ (start lp : Nat) (bs : List Nat),
      start ∈ (runsFrom start bs lp rest).map Prod.fst := by
  induction rest with
  | nil => intro start lp bs; simp [runsFrom]
  | cons f r ih =>
    obtain ⟨q, bq⟩ := f
    intro start lp bs
    by_cases hq : q = lp + 1
    · simp only [runsFrom, if_pos hq]
      exact ih start q (bs ++ [bq])
    · simp [runsFrom, hq]

/-- A fact that does not extend the last seen address by one starts a run of
its own in the spec-side run builder. -/
theorem runsFrom_gap_head (l2 : List (Nat × Nat)) (start lp : Nat) (bs : List Nat)
    (x : Nat × Nat) (hx : x.1 ≠ lp + 1) :
    x.1 ∈ (runsFrom start bs lp (x :: l2)).map Prod.fst := by
  obtain ⟨xa, xb⟩ := x
  have hx' : ¬(xa = lp + 1) := hx
  simp only [runsFrom, if_neg hx', List.map_cons, List.mem_cons]
  exact Or.inr (runsFrom_head_mem l2 xa xa [xb])

/-- Whenever two consecutive facts of the remaining input differ by more than
one in address, the later of the two is a run start (a key of the output),
for every state of the spec-side run builder. -/
theorem runsFrom_gap_mem (l1 : List (Nat × Nat)) :
    ∀ (start lp : Nat) (bs : List Nat) (l2 : List (Nat × Nat)) (y x : Nat × Nat),
      x.1 ≠ y.1 + 1 →
      x.1 ∈ (runsFrom start bs lp (l1 ++ y :: x :: l2)).map Prod.fst := by
  induction l1 with
  | nil =>
    intro start lp bs l2 y x hgap
    obtain ⟨ya, yb⟩ := y
    have hxgap : x.1 ≠ ya + 1 := hgap
    by_cases hq : ya = lp + 1
    · rw [show runsFrom start bs lp ([] ++ (ya, yb) :: x :: l2) =
          runsFrom start (bs ++ [yb]) ya (x :: l2) from by simp [runsFrom, hq]]
      exact runsFrom_gap_head l2 start ya (bs ++ [yb]) x hxgap
    · rw [show runsFrom start bs lp ([] ++ (ya, yb) :: x :: l2) =
          (start, bs) :: runsFrom ya [yb] ya (x :: l2) from by simp [runsFrom, hq]]
      simp only [List.map_cons, List.mem_cons]
      exact Or.inr (runsFrom_gap_head l2 ya ya [yb] x hxgap)
  | cons g l1' ih =>
    intro start lp bs l2 y x hgap
    obtain ⟨qa, qb⟩ := g
    by_cases hq : qa = lp + 1
    · rw [show runsFrom start bs lp ((qa, qb) :: l1' ++ y :: x :: l2) =
          runsFrom start (bs ++ [qb]) qa (l1' ++ y :: x :: l2) from by simp [runsFrom, hq]]
      exact ih start qa (bs ++ [qb]) l2 y x hgap
    · rw [show runsFrom start bs lp ((qa, qb) :: l1' ++ y :: x :: l2) =
          (start, bs) :: runsFrom qa [qb] qa (l1' ++ y :: x :: l2) from by simp [runsFrom, hq]]
      simp only [List.map_cons, List.mem_cons]
      exact Or.inr (ih qa qa [qb] l2 y x hgap)

/-- When the byte one below the queried address is patched, `_get_patch`
misses: the window starts at `a - 1`, so the first run is keyed at `a - 1`
(or continues from it), never at `a`. -/
theorem getPatch_none_helper (global : List (Nat × Nat)) (a : Nat)
    (hs : AddrSorted global) (ha : 1 ≤ a)
    (hpa1 : (a - 1) ∈ global.map Prod.fst) :
    getPatch global a = none := by
  have hmp : maxPatchSize = 255 := rfl
  have hwf_sorted : AddrSorted (visitPatchedBytes global (a - 1) (a + maxPatchSize)) :=
    visitPatchedBytes_sorted hs _ _
  obtain ⟨e, he, hee⟩ := List.mem_map.mp hpa1
  have hew : e ∈ visitPatchedBytes global (a - 1) (a + maxPatchSize) := by
    rw [visitPatchedBytes_mem]
    exact ⟨he, by omega, by omega⟩
  have hmem1 : (a - 1) ∈ (visitPatchedBytes global (a - 1) (a + maxPatchSize)).map Prod.fst :=
    List.mem_map.mpr ⟨e, hew, hee⟩
  have hmin : ∀ y ∈ (visitPatchedBytes global (a - 1) (a + maxPatchSize)).map Prod.fst,
      a - 1 ≤ y := by
    intro y hy
    obtain ⟨f, hf, hfy⟩ := List.mem_map.mp hy
    have hb := (visitPatchedBytes_mem global (a - 1) (a + maxPatchSize) f).mp hf
    omega
  obtain ⟨b0, rest, hwe⟩ := sorted_head_of_min hwf_sorted hmem1 hmin
  have hsorted2 : AddrSorted ((a - 1, b0) :: rest) := by rw [← hwe]; exact hwf_sorted
  have hraw : coalesceRaw (visitPatchedBytes global (a - 1) (a + maxPatchSize)) true =
      firstRunFrom (a - 1) [b0] (a - 1) rest := by
    rw [hwe]; exact coalesceRaw_true_eq_firstRun _ _ _ hsorted2
  have hrest_gt : ∀ g ∈ rest, a - 1 < g.1 := fun g hg => (List.pairwise_cons.mp hsorted2).1 g hg
  have hrest_sorted : AddrSorted rest := (List.pairwise_cons.mp hsorted2).2
  have hkeys : ∀ kv ∈ firstRunFrom (a - 1) [b0] (a - 1) rest, kv.1 ≠ a := by
    intro kv hkv
    obtain ⟨k, v⟩ := kv
    show k ≠ a
    rcases firstRunFrom_key_lb rest (a - 1) (a - 1) [b0] k v hrest_gt hrest_sorted hkv
      with h1 | h2 <;> omega
  have hunfold : getPatch global a =
      (List.lookup a (coalesceRaw (visitPatchedBytes global (a - 1) (a + maxPatchSize)) true)).map
        (Patch.mk a) :=
    lookup_map_mk _ a
  rw [hunfold, hraw, lookup_eq_none_pairs hkeys]
  rfl

/-- When `_get_patch` answers, the returned Patch is keyed at the query
address, that address is patched, and the run does not reach past the upper
window bound `a + _max_patch_size`. -/
theorem getPatch_some_helper (global : List (Nat × Nat)) (a : Nat)
    (hs : AddrSorted global) (p : Patch)
    (hsome : getPatch global a = some p) :
    p.addr = a ∧ a ∈ global.map Prod.fst ∧ p.addr + p.bytes.length ≤ a + maxPatchSize := by
  have hwf_sorted : AddrSorted (visitPatchedBytes global (a - 1) (a + maxPatchSize)) :=
    visitPatchedBytes_sorted hs _ _
  have hunfold : getPatch global a =
      (List.lookup a (coalesceRaw (visitPatchedBytes global (a - 1) (a + maxPatchSize)) true)).map
        (Patch.mk a) :=
    lookup_map_mk _ a
  rw [hunfold] at hsome
  cases hlk : List.lookup a (coalesceRaw (visitPatchedBytes global (a - 1) (a + maxPatchSize)) true) with
  | none => rw [hlk] at hsome; simp at hsome
  | some bs =>
    rw [hlk] at hsome
    have hp : Patch.mk a bs = p := by simpa using hsome
    cases hwfe : visitPatchedBytes global (a - 1) (a + maxPatchSize) with
    | nil =>
      rw [hwfe] at hlk
      simp [coalesceRaw, coalesceLoop, List.lookup] at hlk
    | cons f rest =>
      obtain ⟨q, b0⟩ := f
      have hsorted2 : AddrSorted ((q, b0) :: rest) := by rw [← hwfe]; exact hwf_sorted
      have hraw : coalesceRaw (visitPatchedBytes global (a - 1) (a + maxPatchSize)) true =
          firstRunFrom q [b0] q rest := by
        rw [hwfe]; exact coalesceRaw_true_eq_firstRun _ _ _ hsorted2
      rw [hraw] at hlk
      have hmemr : (a, bs) ∈ firstRunFrom q [b0] q rest := lookup_mem_pairs hlk
      have hawf : a ∈ ((q, b0) :: rest).map Prod.fst := by
        rcases firstRunFrom_mem_keys rest q q [b0] a bs hmemr with h1 | h2
        · simp [h1]
        · simp [h2]
      have haglob : a ∈ global.map Prod.fst := by
        obtain ⟨f', hf', hfa⟩ := List.mem_map.mp hawf
        have hf'w : f' ∈ visitPatchedBytes global (a - 1) (a + maxPatchSize) := by
          rw [hwfe]; exact hf'
        exact List.mem_map.mpr
          ⟨f', ((visitPatchedBytes_mem global _ _ f').mp hf'w).1, hfa⟩
      have hub : ∀ g ∈ (q, b0) :: rest, g.1 < a + maxPatchSize := by
        intro g hg
        have hgw : g ∈ visitPatchedBytes global (a - 1) (a + maxPatchSize) := by
          rw [hwfe]; exact hg
        exact ((visitPatchedBytes_mem global _ _ g).mp hgw).2.2
      have hlen : a + bs.length ≤ a + maxPatchSize := by
        refine firstRunFrom_len rest q q [b0] (a + maxPatchSize) a bs ?_ ?_ ?_ ?_ ?_ hmemr
        · simp
        · exact hub (q, b0) (List.mem_cons_self _ _)
        · exact fun g hg => (List.pairwise_cons.mp hsorted2).1 g hg
        · exact fun g hg => hub g (List.mem_cons_of_mem _ hg)
        · exact (List.pairwise_cons.mp hsorted2).2
      refine ⟨?_, haglob, ?_⟩
      · rw [← hp]
      · rw [← hp]; exact hlen

/-- Preserving the probe cache: `update_active_context` only ever writes
`_updated_ctx`. -/
theorem updateActiveContext_cache (s : AdapterState) (addr : Nat)
    (fl : Nat → Option (Nat × String)) :
    (updateActiveContext s addr fl).decompilerAvailableCache = s.decompilerAvailableCache := by
  by_cases h : addr = 0 ∨ addr = BADADDR
  · simp [updateActiveContext, h]
  · cases hfl : fl addr <;> simp [updateActiveContext, h, hfl]

/-- C1, counterexample: on the facts at addresses 10,11,12,20,21,30 (bytes
1..6), the `stop_after_first=True` scan does NOT return only the first run:
it returns two entries, and the second one is keyed at address 20, the start
of the second run, with the single byte seen there. -/
theorem stop_after_first_single_patch_ce :
    collectContinuousPatches [(10, 1), (11, 2), (12, 3), (20, 4), (21, 5), (30, 6)] 0 100 true =
      [(10, Patch.mk 10 [1, 2, 3]), (20, Patch.mk 20 [4])] ∧
    (collectContinuousPatches [(10, 1), (11, 2), (12, 3), (20, 4), (21, 5), (30, 6)] 0 100
        true).length = 2 ∧
    List.lookup 20
        (collectContinuousPatches [(10, 1), (11, 2), (12, 3), (20, 4), (21, 5), (30, 6)] 0 100
          true) = some (Patch.mk 20 [4]) := by
  refine ⟨rfl, rfl, rfl⟩

/-- C1, amended: on sorted facts, `stop_after_first=True` yields the first
maximal contiguous run in full plus, when a later run exists in the range,
one extra single-byte Patch keyed at the second run's start (the byte that
revealed the gap is recorded before the loop breaks); on the example the
result is exactly two Patches, addr=10 bytes [a,b,c] and addr=20 bytes [d]. -/
theorem stop_after_first_first_run_plus_stray :
    (∀ (p b : Nat) (rest : List (Nat × Nat)), AddrSorted ((p, b) :: rest) →
        coalesceRaw ((p, b) :: rest) true = firstRunFrom p [b] p rest) ∧
    (∀ va vb vc vd ve vf : Nat,
        collectContinuousPatches [(10, va), (11, vb), (12, vc), (20, vd), (21, ve), (30, vf)]
            0 100 true =
          [(10, Patch.mk 10 [va, vb, vc]), (20, Patch.mk 20 [vd])]) :=
  ⟨fun p b rest h => coalesceRaw_true_eq_firstRun p b rest h,
   fun _ _ _ _ _ _ => rfl⟩

/-- C1, witness for the amended theorem at concrete inputs. -/
theorem stop_after_first_first_run_plus_stray_w :
    coalesceRaw [(10, 7)] true = firstRunFrom 10 [7] 10 [] ∧
    collectContinuousPatches [(10, 1), (11, 2), (12, 3), (20, 4), (21, 5), (30, 6)] 0 100 true =
      [(10, Patch.mk 10 [1, 2, 3]), (20, Patch.mk 20 [4])] :=
  ⟨stop_after_first_first_run_plus_stray.1 10 7 [] (by decide),
   stop_after_first_first_run_plus_stray.2 1 2 3 4 5 6⟩

/-- C2, counterexample: writing patch bytes identical to the current backend
memory (an idempotent no-op) leaves the state unchanged, yet `_set_patch`
still returns `True`, so the changed-only contract fails for `_set_patch`. -/
theorem set_patch_noop_returns_true_ce :
    (setPatch [0, 5, 0] (Patch.mk 1 [5])).2 = [0, 5, 0] ∧
    (setPatch [0, 5, 0] (Patch.mk 1 [5])).1 = true := by
  refine ⟨rfl, rfl⟩

/-- C2, amended: `_set_patch` returns `True` unconditionally — it reports a
change even when the written bytes equal the current backend state, so it
does not satisfy the changed-only `set_*` contract. -/
theorem set_patch_always_returns_true (mem : List Nat) (p : Patch) :
    (setPatch mem p).1 = true :=
  rfl

/-- C3: on every sorted enumeration the full scan emits exactly the maximal
contiguous runs (one Patch per distinct run start, bytes concatenated in
address order, as the spec describes them via `runsSpec`); in particular the
facts at 10,11,12,20,21,30 with bytes a..f give three Patches: addr=10
[a,b,c], addr=20 [d,e], addr=30 [f]. -/
theorem coalescer_emits_runs :
    (∀ facts : List (Nat × Nat), AddrSorted facts → coalesceRaw facts false = runsSpec facts) ∧
    (∀ va vb vc vd ve vf : Nat,
        collectContinuousPatches [(10, va), (11, vb), (12, vc), (20, vd), (21, ve), (30, vf)]
            0 100 false =
          [(10, Patch.mk 10 [va, vb, vc]), (20, Patch.mk 20 [vd, ve]), (30, Patch.mk 30 [vf])]) :=
  ⟨coalesceRaw_false_eq_runsSpec, fun _ _ _ _ _ _ => rfl⟩

/-- C3, witness at concrete inputs. -/
theorem coalescer_emits_runs_w :
    coalesceRaw [(10, 1), (11, 2)] false = runsSpec [(10, 1), (11, 2)] ∧
    collectContinuousPatches [(10, 1), (11, 2), (12, 3), (20, 4), (21, 5), (30, 6)] 0 100 false =
      [(10, Patch.mk 10 [1, 2, 3]), (20, Patch.mk 20 [4, 5]), (30, Patch.mk 30 [6])] :=
  ⟨coalescer_emits_runs.1 [(10, 1), (11, 2)] (by decide),
   coalescer_emits_runs.2 1 2 3 4 5 6⟩

/-- C4: run adjacency is strict +1 contiguity — whenever two consecutive
facts of a sorted enumeration differ in address by anything other than one,
the later address starts a run of its own (it is a key of the full-scan
result), whatever the byte values; in particular facts at 10 and 12 give two
single-byte Patches, never one two-byte Patch. -/
theorem coalescer_strict_adjacency :
    (∀ (facts l1 l2 : List (Nat × Nat)) (y x : Nat × Nat), AddrSorted facts →
        facts = l1 ++ y :: x :: l2 → x.1 ≠ y.1 + 1 →
        x.1 ∈ (coalesceRaw facts false).map Prod.fst) ∧
    (∀ b1 b2 : Nat,
        collectContinuousPatches [(10, b1), (12, b2)] 0 100 false =
          [(10, Patch.mk 10 [b1]), (12, Patch.mk 12 [b2])]) := by
  constructor
  · intro facts l1 l2 y x hs heq hgap
    subst heq
    rw [coalesceRaw_false_eq_runsSpec _ hs]
    cases l1 with
    | nil =>
      obtain ⟨ya, yb⟩ := y
      have hxgap : x.1 ≠ ya + 1 := hgap
      rw [show runsSpec ([] ++ (ya, yb) :: x :: l2) = runsFrom ya [yb] ya (x :: l2) from by
        simp [runsSpec]]
      exact runsFrom_gap_head l2 ya ya [yb] x hxgap
    | cons g l1' =>
      obtain ⟨qa, qb⟩ := g
      rw [show runsSpec ((qa, qb) :: l1' ++ y :: x :: l2) =
          runsFrom qa [qb] qa (l1' ++ y :: x :: l2) from by simp [runsSpec]]
      exact runsFrom_gap_mem l1' qa qa [qb] l2 y x hgap
  · intro b1 b2
    rfl

/-- C4, witness at concrete inputs. -/
theorem coalescer_strict_adjacency_w :
    12 ∈ (coalesceRaw [(10, 1), (12, 2)] false).map Prod.fst ∧
    collectContinuousPatches [(10, 3), (12, 4)] 0 100 false =
      [(10, Patch.mk 10 [3]), (12, Patch.mk 12 [4])] :=
  ⟨coalescer_strict_adjacency.1 [(10, 1), (12, 2)] [] [] (10, 1) (12, 2)
      (by decide) rfl (by decide),
   coalescer_strict_adjacency.2 3 4⟩

/-- C5: when the enumeration of modified bytes over the queried range is
empty, `_collect_continuous_patches` returns the empty mapping (and, being a
total function, signals no error). -/
theorem coalescer_empty_enumeration (global : List (Nat × Nat)) (minAddr maxAddr : Nat)
    (stopAfterFirst : Bool)
    (h : visitPatchedBytes global minAddr maxAddr = []) :
    collectContinuousPatches global minAddr maxAddr stopAfterFirst = [] := by
  simp [collectContinuousPatches, coalesceRaw, h, coalesceLoop]

/-- C5, witness: a nonempty database whose queried range holds no modified
byte. -/
theorem coalescer_empty_enumeration_w :
    collectContinuousPatches [(5, 1)] 10 20 true = [] :=
  coalescer_empty_enumeration [(5, 1)] 10 20 true (by decide)

/-- C6: on the crashing backend version, `_set_struct` for a struct named
"gcc_va_list" refuses the mutation: it returns `False`, performs no backend
write (neither header nor members), and emits exactly one critical-severity
log record — and, being a total function, it never throws. -/
theorem set_struct_known_crash_skip (st : StructArtifact)
    (header members headerChanged membersChanged : Bool)
    (hname : st.name = "gcc_va_list") :
    setStruct true st header members headerChanged membersChanged =
      SetStructResult.mk false [] [LogSeverity.critical] := by
  simp [setStruct, hname]

/-- C6, witness at a concrete struct. -/
theorem set_struct_known_crash_skip_w :
    setStruct true (StructArtifact.mk "gcc_va_list" 24) true true true true =
      SetStructResult.mk false [] [LogSeverity.critical] :=
  set_struct_known_crash_skip (StructArtifact.mk "gcc_va_list" 24) true true true true rfl

/-- C7: `_decompile` catches every internal backend fault at the adapter
boundary and returns `none`, never propagating the exception; on success it
returns the rendered decompiled text. -/
theorem decompile_never_propagates {E C : Type} (backend : Nat → Except E C)
    (render : C → String) (f : FunctionArtifact) :
    (∀ e : E, backend f.addr = Except.error e → decompile backend render f = none) ∧
    (∀ c : C, backend f.addr = Except.ok c → decompile backend render f = some (render c)) := by
  constructor
  · intro e he
    simp [decompile, he]
  · intro c hc
    simp [decompile, hc]

/-- C7, witness: a faulting backend and a succeeding backend at a concrete
function. -/
theorem decompile_never_propagates_w :
    decompile (fun _ => (Except.error 7 : Except Nat String)) id
        (FunctionArtifact.mk 4096 0 "main") = none ∧
    decompile (fun _ => (Except.ok "int main()" : Except Nat String)) id
        (FunctionArtifact.mk 4096 0 "main") = some "int main()" :=
  ⟨(decompile_never_propagates (fun _ => (Except.error 7 : Except Nat String)) id
      (FunctionArtifact.mk 4096 0 "main")).1 7 rfl,
   (decompile_never_propagates (fun _ => (Except.ok "int main()" : Except Nat String)) id
      (FunctionArtifact.mk 4096 0 "main")).2 "int main()" rfl⟩

/-- C8: `_get_patch(a)` answers with a Patch only when a contiguous run
starts exactly at `a` within the scanned window: the Patch is keyed at `a`,
`a` is patched while `a - 1` is not, and the bytes never reach past
`a + _max_patch_size`; when the byte at `a` is patched but the byte at
`a - 1` is patched too (the run starts earlier), the lookup returns `none`. -/
theorem get_patch_run_start_only (global : List (Nat × Nat)) (a : Nat)
    (hs : AddrSorted global) (ha : 1 ≤ a) (p : Patch) :
    (getPatch global a = some p →
        p.addr = a ∧ a ∈ global.map Prod.fst ∧ (a - 1) ∉ global.map Prod.fst ∧
        p.addr + p.bytes.length ≤ a + maxPatchSize) ∧
    (a ∈ global.map Prod.fst → (a - 1) ∈ global.map Prod.fst → getPatch global a = none) := by
  constructor
  · intro hsome
    obtain ⟨h1, h2, h3⟩ := getPatch_some_helper global a hs p hsome
    refine ⟨h1, h2, ?_, h3⟩
    intro hmem
    rw [getPatch_none_helper global a hs ha hmem] at hsome
    exact Option.noConfusion hsome
  · intro _ hmem
    exact getPatch_none_helper global a hs ha hmem

/-- C8, witness: bytes patched at 9 and 10 — the run containing 10 starts at
9, so querying 10 misses. -/
theorem get_patch_run_start_only_w :
    getPatch [(9, 1), (10, 2)] 10 = none :=
  (get_patch_run_start_only [(9, 1), (10, 2)] 10 (by decide) (by decide)
      (Patch.mk 10 [2])).2 (by decide) (by decide)

/-- C9: the `decompiler_available` probe is memoized — after the first read
establishes a value, a second read returns the same value and leaves the
state untouched, whatever the later probe would report; and the adapter's
only other state-writing operation, `update_active_context`, never touches
the cached probe result. -/
theorem decompiler_available_cached_once (s : AdapterState) (p1 p2 : Bool) (addr : Nat)
    (funcLookup : Nat → Option (Nat × String)) :
    decompilerAvailable p2 (decompilerAvailable p1 s).2 =
      ((decompilerAvailable p1 s).1, (decompilerAvailable p1 s).2) ∧
    (updateActiveContext (decompilerAvailable p1 s).2 addr funcLookup).decompilerAvailableCache =
      (decompilerAvailable p1 s).2.decompilerAvailableCache := by
  constructor
  · obtain ⟨ctx, cache⟩ := s
    cases cache <;> simp [decompilerAvailable]
  · exact updateActiveContext_cache _ addr funcLookup

/-- C10: on every valid backend-native address the lift/lower round trip is
the identity, and lifting then lowering the invalid-address sentinel yields
the same sentinel, never a valid-looking address. -/
theorem lift_lower_round_trip (base x : Nat) :
    (validNative base x → lowerAddr base (liftAddr base x) = x) ∧
    lowerAddr base (liftAddr base BADADDR) = BADADDR ∧
    ¬ validNative base (lowerAddr base (liftAddr base BADADDR)) := by
  refine ⟨?_, ?_, ?_⟩
  · intro hv
    obtain ⟨h1, h2⟩ := hv
    have hxne : x ≠ BADADDR := Nat.ne_of_lt h2
    have hlift : liftAddr base x = x - base := by simp [liftAddr, hxne]
    have hcan : x - base ≠ canonicalSentinel := by
      have hsub : x - base ≤ x := Nat.sub_le x base
      have hb : BADADDR = canonicalSentinel := rfl
      omega
    rw [hlift]
    simp only [lowerAddr, if_neg hcan]
    omega
  · simp [liftAddr, lowerAddr]
  · intro hv
    obtain ⟨h1, h2⟩ := hv
    rw [show lowerAddr base (liftAddr base BADADDR) = BADADDR from by
      simp [liftAddr, lowerAddr]] at h2
    omega

/-- C10, witness: a concrete rebased backend and a concrete valid address. -/
theorem lift_lower_round_trip_w :
    lowerAddr 4194304 (liftAddr 4194304 4198400) = 4198400 :=
  (lift_lower_round_trip 4194304 4198400).1 ⟨by decide, by decide⟩

end YodaIDA
